import Mathlib

/-!
Shallow embedding of `src/revad.py`, a tiny reverse-mode automatic
differentiation engine.

The Python program keeps a dynamically built computation graph: each `Var`
holds a scalar `value`, a mutable list `children` of `(weight, consumer)`
pairs, and a mutable memo field `grad_value`.  We embed the heap of `Var`
objects as a list of nodes indexed by creation order; Python object
references become indices into that list, and mutation becomes explicit
state passing.  The IEEE-754 doubles of the source are modelled as exact
rationals, with `math.sin` and `math.cos` abstracted as parameters
`sq cq : ℚ → ℚ`.

Fallible evaluation: the recursive `Var.grad` of the source is embedded
with explicit fuel returning `Option`, so that termination is a provable
statement rather than an assumption.
-/

namespace Revad

/-- One `Var` object of the source: its forward value, its `children`
list of `(weight, consumer-index)` edges, and the memoized gradient
(`grad_value`, `None` until set). -/
structure Node where
  value : ℚ
  children : List (ℚ × Nat)
  grad_value : Option ℚ
  deriving Repr, DecidableEq

/-- The heap of `Var` objects, indexed by creation order. -/
abbrev Store := List Node

/-- The node placed at out-of-range reads; construction never produces
out-of-range indices, so this default is never observed on well-formed
stores. -/
def defaultNode : Node := ⟨0, [], none⟩

/-- Read the node at index `i` (Python attribute access through a
reference). -/
def getNode (s : Store) (i : Nat) : Node :=
  s.getD i defaultNode

/-- `self.grad_value = v` on the node at index `i`. -/
def setGrad (s : Store) (i : Nat) (v : ℚ) : Store :=
  s.set i { getNode s i with grad_value := some v }

/-- `self.children.append((w, c))` on the node at index `i`. -/
def recordChild (s : Store) (i : Nat) (w : ℚ) (c : Nat) : Store :=
  s.set i { getNode s i with children := (getNode s i).children ++ [(w, c)] }

/-- `Var(value)`: allocate a fresh node with empty `children` and unset
`grad_value`; returns the new store and the fresh index. -/
def mkVar (s : Store) (v : ℚ) : Store × Nat :=
  (s ++ [⟨v, [], none⟩], s.length)

/-- `Var.__add__`: `z = Var(self.value + other.value)`, then append
`(1.0, z)` to both operands. -/
def addOp (s : Store) (a b : Nat) : Store × Nat :=
  let va := (getNode s a).value
  let vb := (getNode s b).value
  let p := mkVar s (va + vb)
  (recordChild (recordChild p.1 a 1 p.2) b 1 p.2, p.2)

/-- `Var.__mul__`: `z = Var(self.value * other.value)`, then append
`(other.value, z)` to `self` and `(self.value, z)` to `other`. -/
def mulOp (s : Store) (a b : Nat) : Store × Nat :=
  let va := (getNode s a).value
  let vb := (getNode s b).value
  let p := mkVar s (va * vb)
  (recordChild (recordChild p.1 a vb p.2) b va p.2, p.2)

/-- `sin(x)`: `z = Var(math.sin(x.value))`, then append
`(math.cos(x.value), z)` to `x`.  The transcendental functions of the
`math` module are abstracted as the parameters `sq` and `cq`. -/
def sinOp (sq cq : ℚ → ℚ) (s : Store) (a : Nat) : Store × Nat :=
  let va := (getNode s a).value
  let p := mkVar s (sq va)
  (recordChild p.1 a (cq va) p.2, p.2)

/-- One step of `Var.grad`, abstracted over the recursive call `g`:
if `self.grad_value is None`, fold over `self.children` accumulating
`acc + weight * g(consumer)` (the Python
`sum(weight * var.grad() for weight, var in self.children)`, which
threads the heap left to right), store the total, and return it;
otherwise return the memo.  `goChildren` is the fold. -/
def goChildren (g : Store → Nat → Option (Store × ℚ)) :
    Store → List (ℚ × Nat) → ℚ → Option (Store × ℚ)
  | s, [], acc => some (s, acc)
  | s, (w, c) :: rest, acc =>
    match g s c with
    | none => none
    | some (s1, gv) => goChildren g s1 rest (acc + w * gv)

/-- See `goChildren`. -/
def gradStep (g : Store → Nat → Option (Store × ℚ)) (s : Store) (i : Nat) :
    Option (Store × ℚ) :=
  match (getNode s i).grad_value with
  | some gv => some (s, gv)
  | none =>
    match goChildren g s (getNode s i).children 0 with
    | none => none
    | some (s1, total) => some (setGrad s1 i total, total)

/-- `Var.grad` with explicit fuel: `none` signals fuel exhaustion, which
never happens on well-formed stores when the fuel is at least the
recursion depth (see the termination theorem). -/
def grad (fuel : Nat) : Store → Nat → Option (Store × ℚ) :=
  match fuel with
  | 0 => fun _ _ => none
  | f + 1 => fun s i => gradStep (grad f) s i

/-- Ghost (pure, state-free) value of the gradient recursion: the memo if
set, otherwise the sum over children of `weight * gval consumer`.  Used
to state what the stateful `grad` computes. -/
def gval (fuel : Nat) (s : Store) : Nat → ℚ :=
  match fuel with
  | 0 => fun _ => 0
  | f + 1 => fun i =>
    match (getNode s i).grad_value with
    | some g => g
    | none => ((getNode s i).children.map fun wc => wc.1 * gval f s wc.2).sum

/-- Canonical gradient value: `gval` at fuel `s.length`, which is always
sufficient on well-formed stores. -/
def gvalTop (s : Store) (i : Nat) : ℚ :=
  gval s.length s i

/-- Well-formedness: every recorded edge points from a node to a consumer
created strictly later, and all consumer indices are in range.  This is
the acyclicity invariant of the spec: creation order is a topological
order. -/
def WFStore (s : Store) : Prop :=
  ∀ i, i < s.length → ∀ wc ∈ (getNode s i).children, i < wc.2 ∧ wc.2 < s.length

instance : DecidablePred WFStore := fun s =>
  Nat.decidableBallLT s.length fun i _ =>
    ∀ wc ∈ (getNode s i).children, i < wc.2 ∧ wc.2 < s.length

/-- Relation between a store and a later state of the same store produced by
gradient queries: lengths, values and children are unchanged, and each memo
field is either untouched or has been filled, for a previously unset node,
with that node's canonical gradient value. -/
def CacheExt (s t : Store) : Prop :=
  t.length = s.length ∧ ∀ i, i < s.length →
    (getNode t i).value = (getNode s i).value ∧
    (getNode t i).children = (getNode s i).children ∧
    ((getNode t i).grad_value = (getNode s i).grad_value ∨
      ((getNode s i).grad_value = none ∧
        (getNode t i).grad_value = some (gvalTop s i)))

/-- Stores reachable from the empty heap by the forward operations only
(no seeding, no gradient queries): the graphs "built by the forward
operations" of the spec. -/
inductive Built : Store → Prop
  | empty : Built []
  | var (s : Store) (v : ℚ) : Built s → Built (mkVar s v).1
  | addB (s : Store) (a b : Nat) : Built s → a < s.length → b < s.length →
      Built (addOp s a b).1
  | mulB (s : Store) (a b : Nat) : Built s → a < s.length → b < s.length →
      Built (mulOp s a b).1
  | sinB (sq cq : ℚ → ℚ) (s : Store) (a : Nat) : Built s → a < s.length →
      Built (sinOp sq cq s a).1

/-! ### Statement forms of the behavioural claims -/

/-- What `Var.grad` does at node `i` (claim C1): return the memo when it is
set; otherwise return the weighted sum over the children, with the memoized
store recording that sum at `i`, each child contribution being exactly what
`grad` returns for that consumer; and in particular the empty-children case
yields the empty sum `0`. -/
def GradMemoSpec (s : Store) (i fuel : Nat) : Prop :=
  (∀ g, (getNode s i).grad_value = some g → grad fuel s i = some (s, g)) ∧
  ((getNode s i).grad_value = none →
    (grad fuel s i).map Prod.snd =
      some ((getNode s i).children.map fun wc => wc.1 * gvalTop s wc.2).sum ∧
    (grad fuel s i).map (fun p => (getNode p.1 i).grad_value) =
      some (some ((getNode s i).children.map fun wc => wc.1 * gvalTop s wc.2).sum) ∧
    ∀ wc ∈ (getNode s i).children,
      (grad fuel s wc.2).map Prod.snd = some (gvalTop s wc.2)) ∧
  ((getNode s i).grad_value = none → (getNode s i).children = [] →
    grad fuel s i = some (setGrad s i 0, 0))

/-- What `Var.__mul__` does (claim C2): one fresh output node carrying the
product of the operand values, an edge appended to each operand argument
pointing at the output (weights: the other operand's value), every other
node untouched, and no value or memo of an existing node changed. -/
def MulSpec (s : Store) (a b : Nat) : Prop :=
  (mulOp s a b).2 = s.length ∧
  (mulOp s a b).1.length = s.length + 1 ∧
  getNode (mulOp s a b).1 s.length =
    ⟨(getNode s a).value * (getNode s b).value, [], none⟩ ∧
  (∀ j, j < s.length → j ≠ a → j ≠ b →
    getNode (mulOp s a b).1 j = getNode s j) ∧
  (∀ j, j < s.length →
    (getNode (mulOp s a b).1 j).value = (getNode s j).value ∧
    (getNode (mulOp s a b).1 j).grad_value = (getNode s j).grad_value) ∧
  (a ≠ b →
    (getNode (mulOp s a b).1 a).children =
      (getNode s a).children ++ [((getNode s b).value, s.length)] ∧
    (getNode (mulOp s a b).1 b).children =
      (getNode s b).children ++ [((getNode s a).value, s.length)]) ∧
  (a = b →
    (getNode (mulOp s a b).1 a).children =
      (getNode s a).children ++
        [((getNode s a).value, s.length), ((getNode s a).value, s.length)])

/-- What `Var.__add__` does (claim C7): one fresh output node carrying the
sum of the operand values, an edge of weight `1.0` appended to each operand
argument pointing at the output, every other node untouched, and no value
or memo of an existing node changed. -/
def AddSpec (s : Store) (a b : Nat) : Prop :=
  (addOp s a b).2 = s.length ∧
  (addOp s a b).1.length = s.length + 1 ∧
  getNode (addOp s a b).1 s.length =
    ⟨(getNode s a).value + (getNode s b).value, [], none⟩ ∧
  (∀ j, j < s.length → j ≠ a → j ≠ b →
    getNode (addOp s a b).1 j = getNode s j) ∧
  (∀ j, j < s.length →
    (getNode (addOp s a b).1 j).value = (getNode s j).value ∧
    (getNode (addOp s a b).1 j).grad_value = (getNode s j).grad_value) ∧
  (a ≠ b →
    (getNode (addOp s a b).1 a).children =
      (getNode s a).children ++ [(1, s.length)] ∧
    (getNode (addOp s a b).1 b).children =
      (getNode s b).children ++ [(1, s.length)]) ∧
  (a = b →
    (getNode (addOp s a b).1 a).children =
      (getNode s a).children ++ [(1, s.length), (1, s.length)])

/-- What `sin` does (claim C8): one fresh output node carrying
`math.sin` of the input value, a single edge of weight `math.cos` of the
input value appended to the input and pointing at the output, every other
node untouched, and no value or memo of an existing node changed. -/
def SinSpec (sq cq : ℚ → ℚ) (s : Store) (a : Nat) : Prop :=
  (sinOp sq cq s a).2 = s.length ∧
  (sinOp sq cq s a).1.length = s.length + 1 ∧
  getNode (sinOp sq cq s a).1 s.length = ⟨sq (getNode s a).value, [], none⟩ ∧
  (∀ j, j < s.length → j ≠ a → getNode (sinOp sq cq s a).1 j = getNode s j) ∧
  (∀ j, j < s.length →
    (getNode (sinOp sq cq s a).1 j).value = (getNode s j).value ∧
    (getNode (sinOp sq cq s a).1 j).grad_value = (getNode s j).grad_value) ∧
  (getNode (sinOp sq cq s a).1 a).children =
    (getNode s a).children ++ [(cq (getNode s a).value, s.length)]

/-! ### Concrete graphs used by the reference example and the tests -/

/-- The graph of `x = Var(0.5); y = Var(4.2); z = x * y + sin(x)` with the
root seeded by `z.grad_value = 1.0`: node 0 is `x`, node 1 is `y`, node 2
is `x * y`, node 3 is `sin(x)`, node 4 is `z`. -/
def exStore (sq cq : ℚ → ℚ) : Store :=
  setGrad (addOp (sinOp sq cq
    (mulOp (mkVar (mkVar [] (1/2)).1 (21/5)).1 0 1).1 0).1 2 3).1 4 1

/-- What the reference script checks (claim C3), with `math.sin` and
`math.cos` abstracted as `sq` and `cq`: the root value is within `1e-12`
of `2.579425538604203`, `x.grad()` returns exactly
`y.value + math.cos(x.value)`, and `y.grad()` (run on the heap left by
`x.grad()`) returns exactly `x.value`. -/
def ExSpec (sq cq : ℚ → ℚ) : Prop :=
  |(getNode (exStore sq cq) 4).value - 2579425538604203 / 1000000000000000| ≤
    1 / 1000000000000 ∧
  (grad 5 (exStore sq cq) 0).map Prod.snd =
    some ((getNode (exStore sq cq) 1).value +
      cq (getNode (exStore sq cq) 0).value) ∧
  ((grad 5 (exStore sq cq) 0).bind fun p => grad 5 p.1 1).map Prod.snd =
    some (getNode (exStore sq cq) 0).value

/-- The graph of `x = Var(v); y = x * x` with the root seeded by
`y.grad_value = 1.0`: node 0 is `x`, node 1 is `y`. -/
def mulSelfSeeded (v : ℚ) : Store :=
  setGrad (mulOp (mkVar [] v).1 0 0).1 1 1

/-- The graph of `x = Var(3); y = x * x`, not seeded. -/
def sqStoreA : Store := (mulOp (mkVar [] 3).1 0 0).1

/-- The heap left by calling `x.grad()` on `sqStoreA` before any seeding:
both memo fields are stuck at `0`. -/
def sqStoreCachedZero : Store := [⟨3, [(3, 1), (3, 1)], some 0⟩, ⟨9, [], some 0⟩]

/-- A two-variable heap, `Var(2)` and `Var(5)`, used to instantiate the
forward-operation claims. -/
def pairStore : Store := [⟨2, [], none⟩, ⟨5, [], none⟩]

/-! ### Basic store lemmas -/

theorem getNode_eq_getElem? (s : Store) (i : Nat) :
    getNode s i = (s[i]?).getD defaultNode :=
  List.getD_eq_getElem?_getD s i defaultNode

theorem getNode_out (s : Store) (i : Nat) (h : s.length ≤ i) :
    getNode s i = defaultNode := by
  rw [getNode_eq_getElem?, List.getElem?_eq_none h]
  rfl

theorem length_setGrad (s : Store) (i : Nat) (v : ℚ) :
    (setGrad s i v).length = s.length :=
  List.length_set s i _

theorem length_recordChild (s : Store) (i : Nat) (w : ℚ) (c : Nat) :
    (recordChild s i w c).length = s.length :=
  List.length_set s i _

theorem length_mkVar (s : Store) (v : ℚ) :
    (mkVar s v).1.length = s.length + 1 := by
  simp [mkVar]

theorem getNode_set_self (s : Store) (i : Nat) (n : Node) (h : i < s.length) :
    getNode (s.set i n) i = n := by
  rw [getNode_eq_getElem?, List.getElem?_set_self', List.getElem?_eq_getElem h]
  rfl

theorem getNode_set_ne (s : Store) (i j : Nat) (n : Node) (h : i ≠ j) :
    getNode (s.set i n) j = getNode s j := by
  rw [getNode_eq_getElem?, List.getElem?_set_ne h, ← getNode_eq_getElem?]

theorem getNode_setGrad_self (s : Store) (i : Nat) (v : ℚ) (h : i < s.length) :
    getNode (setGrad s i v) i = { getNode s i with grad_value := some v } :=
  getNode_set_self s i _ h

theorem getNode_setGrad_ne (s : Store) (i j : Nat) (v : ℚ) (h : i ≠ j) :
    getNode (setGrad s i v) j = getNode s j :=
  getNode_set_ne s i j _ h

theorem value_setGrad (s : Store) (i j : Nat) (v : ℚ) :
    (getNode (setGrad s i v) j).value = (getNode s j).value := by
  by_cases hij : i = j
  · subst hij
    by_cases hi : i < s.length
    · rw [getNode_setGrad_self s i v hi]
    · rw [setGrad, List.set_eq_of_length_le (Nat.le_of_not_lt hi)]
  · rw [getNode_setGrad_ne s i j v hij]

theorem children_setGrad (s : Store) (i j : Nat) (v : ℚ) :
    (getNode (setGrad s i v) j).children = (getNode s j).children := by
  by_cases hij : i = j
  · subst hij
    by_cases hi : i < s.length
    · rw [getNode_setGrad_self s i v hi]
    · rw [setGrad, List.set_eq_of_length_le (Nat.le_of_not_lt hi)]
  · rw [getNode_setGrad_ne s i j v hij]

theorem getNode_recordChild_ne (s : Store) (i j : Nat) (w : ℚ) (c : Nat)
    (h : i ≠ j) : getNode (recordChild s i w c) j = getNode s j :=
  getNode_set_ne s i j _ h

theorem getNode_recordChild_self (s : Store) (i : Nat) (w : ℚ) (c : Nat)
    (h : i < s.length) :
    getNode (recordChild s i w c) i =
      { getNode s i with children := (getNode s i).children ++ [(w, c)] } :=
  getNode_set_self s i _ h

theorem value_recordChild (s : Store) (i j : Nat) (w : ℚ) (c : Nat) :
    (getNode (recordChild s i w c) j).value = (getNode s j).value := by
  by_cases hij : i = j
  · subst hij
    by_cases hi : i < s.length
    · rw [getNode_recordChild_self s i w c hi]
    · rw [recordChild, List.set_eq_of_length_le (Nat.le_of_not_lt hi)]
  · rw [getNode_recordChild_ne s i j w c hij]

theorem grad_value_recordChild (s : Store) (i j : Nat) (w : ℚ) (c : Nat) :
    (getNode (recordChild s i w c) j).grad_value = (getNode s j).grad_value := by
  by_cases hij : i = j
  · subst hij
    by_cases hi : i < s.length
    · rw [getNode_recordChild_self s i w c hi]
    · rw [recordChild, List.set_eq_of_length_le (Nat.le_of_not_lt hi)]
  · rw [getNode_recordChild_ne s i j w c hij]

theorem getNode_mkVar_lt (s : Store) (v : ℚ) (j : Nat) (h : j < s.length) :
    getNode (mkVar s v).1 j = getNode s j := by
  simp [mkVar, getNode_eq_getElem?, List.getElem?_append, h]

theorem getNode_mkVar_self (s : Store) (v : ℚ) :
    getNode (mkVar s v).1 s.length = ⟨v, [], none⟩ := by
  rw [mkVar, getNode_eq_getElem?, List.getElem?_concat_length]
  rfl

/-! ### Unfolding lemmas for the gradient recursion -/

theorem grad_zero (s : Store) (i : Nat) : grad 0 s i = none := rfl

theorem grad_succ (f : Nat) (s : Store) (i : Nat) :
    grad (f + 1) s i = gradStep (grad f) s i := rfl

theorem gradStep_cached (g : Store → Nat → Option (Store × ℚ)) (s : Store)
    (i : Nat) (gv : ℚ) (h : (getNode s i).grad_value = some gv) :
    gradStep g s i = some (s, gv) := by
  rw [gradStep, h]

theorem gval_zero (s : Store) (i : Nat) : gval 0 s i = 0 := rfl

theorem gval_succ_cached (f : Nat) (s : Store) (i : Nat) (g : ℚ)
    (h : (getNode s i).grad_value = some g) : gval (f + 1) s i = g := by
  simp only [gval]
  rw [h]

theorem gval_succ_uncached (f : Nat) (s : Store) (i : Nat)
    (h : (getNode s i).grad_value = none) :
    gval (f + 1) s i =
      ((getNode s i).children.map fun wc => wc.1 * gval f s wc.2).sum := by
  simp only [gval]
  rw [h]

/-! ### Stability of `gval` in the fuel, on well-formed stores -/

theorem gval_stable (s : Store) (hwf : WFStore s) :
    ∀ f1 f2 i, i < s.length → s.length - i ≤ f1 → s.length - i ≤ f2 →
      gval f1 s i = gval f2 s i := by
  intro f1
  induction f1 with
  | zero => intro f2 i hi h1 _; omega
  | succ a ih =>
    intro f2 i hi h1 h2
    cases f2 with
    | zero => omega
    | succ b =>
      cases hg : (getNode s i).grad_value with
      | some g => rw [gval_succ_cached a s i g hg, gval_succ_cached b s i g hg]
      | none =>
        rw [gval_succ_uncached a s i hg, gval_succ_uncached b s i hg]
        refine congrArg List.sum (List.map_congr_left fun wc hwc => ?_)
        have hb := hwf i hi wc hwc
        have : gval a s wc.2 = gval b s wc.2 :=
          ih b wc.2 hb.2 (by omega) (by omega)
        rw [this]

theorem gvalTop_eq_gval (s : Store) (hwf : WFStore s) (i f : Nat)
    (hi : i < s.length) (hf : s.length - i ≤ f) :
    gvalTop s i = gval f s i :=
  gval_stable s hwf s.length f i hi (Nat.sub_le _ _) hf

theorem gvalTop_cached (s : Store) (i : Nat) (g : ℚ) (hi : i < s.length)
    (hg : (getNode s i).grad_value = some g) : gvalTop s i = g := by
  obtain ⟨m, hl⟩ : ∃ m, s.length = m + 1 := ⟨s.length - 1, by omega⟩
  rw [gvalTop, hl, gval_succ_cached m s i g hg]

theorem gvalTop_uncached (s : Store) (hwf : WFStore s) (i : Nat)
    (hi : i < s.length) (hg : (getNode s i).grad_value = none) :
    gvalTop s i =
      ((getNode s i).children.map fun wc => wc.1 * gvalTop s wc.2).sum := by
  obtain ⟨m, hl⟩ : ∃ m, s.length = m + 1 := ⟨s.length - 1, by omega⟩
  rw [gvalTop, hl, gval_succ_uncached m s i hg]
  refine congrArg List.sum (List.map_congr_left fun wc hwc => ?_)
  have hb := hwf i hi wc hwc
  rw [gvalTop_eq_gval s hwf wc.2 m hb.2 (by omega)]

theorem CacheExt.refl (s : Store) : CacheExt s s :=
  ⟨rfl, fun _ _ => ⟨rfl, rfl, Or.inl rfl⟩⟩

theorem CacheExt.wf (s t : Store) (hwf : WFStore s) (h : CacheExt s t) :
    WFStore t := by
  intro i hi wc hwc
  rw [h.1] at hi ⊢
  rw [(h.2 i hi).2.1] at hwc
  exact hwf i hi wc hwc

theorem CacheExt.gval_eq (s t : Store) (hwf : WFStore s) (h : CacheExt s t) :
    ∀ f i, i < s.length → s.length - i ≤ f → gval f t i = gval f s i := by
  intro f
  induction f with
  | zero => intro i hi hf; omega
  | succ a ih =>
    intro i hi hf
    rcases h.2 i hi with ⟨_, hch, hcache⟩
    rcases hcache with hsame | ⟨hnone, hset⟩
    · cases hg : (getNode s i).grad_value with
      | some g =>
        rw [gval_succ_cached a t i g (by rw [hsame, hg]),
          gval_succ_cached a s i g hg]
      | none =>
        rw [gval_succ_uncached a t i (by rw [hsame, hg]),
          gval_succ_uncached a s i hg, hch]
        refine congrArg List.sum (List.map_congr_left fun wc hwc => ?_)
        have hb := hwf i hi wc hwc
        rw [ih wc.2 hb.2 (by omega)]
    · rw [gval_succ_cached a t i _ hset,
        ← gvalTop_eq_gval s hwf i (a + 1) hi hf]

theorem CacheExt.gvalTop_eq (s t : Store) (hwf : WFStore s) (h : CacheExt s t)
    (i : Nat) (hi : i < s.length) : gvalTop t i = gvalTop s i := by
  rw [gvalTop, h.1, CacheExt.gval_eq s t hwf h s.length i hi (Nat.sub_le _ _),
    ← gvalTop]

theorem CacheExt.trans (s t u : Store) (hwf : WFStore s)
    (hst : CacheExt s t) (htu : CacheExt t u) : CacheExt s u := by
  refine ⟨htu.1.trans hst.1, fun i hi => ?_⟩
  have hit : i < t.length := by rw [hst.1]; exact hi
  rcases hst.2 i hi with ⟨hv1, hc1, hg1⟩
  rcases htu.2 i hit with ⟨hv2, hc2, hg2⟩
  refine ⟨hv2.trans hv1, hc2.trans hc1, ?_⟩
  rcases hg1 with hg1 | ⟨hn1, hs1⟩
  · rcases hg2 with hg2 | ⟨hn2, hs2⟩
    · exact Or.inl (hg2.trans hg1)
    · refine Or.inr ⟨by rw [← hg1, hn2], ?_⟩
      rw [hs2, CacheExt.gvalTop_eq s t hwf hst i hi]
  · rcases hg2 with hg2 | ⟨hn2, hs2⟩
    · exact Or.inr ⟨hn1, by rw [hg2, hs1]⟩
    · rw [hn2] at hs1
      exact absurd hs1 (by simp)

theorem CacheExt.setGrad_step (s t : Store) (i : Nat)
    (h : CacheExt s t) (hi : i < s.length)
    (hnone : (getNode s i).grad_value = none) :
    CacheExt s (setGrad t i (gvalTop s i)) := by
  have hit : i < t.length := by rw [h.1]; exact hi
  refine ⟨by rw [length_setGrad, h.1], fun j hj => ?_⟩
  rcases h.2 j hj with ⟨hv, hc, hg⟩
  by_cases hij : i = j
  · subst hij
    rw [getNode_setGrad_self t i _ hit]
    exact ⟨hv, hc, Or.inr ⟨hnone, rfl⟩⟩
  · rw [getNode_setGrad_ne t i j _ hij]
    exact ⟨hv, hc, hg⟩

/-! ### Soundness of the stateful memoized recursion against `gvalTop` -/

theorem goChildren_sound (f : Nat)
    (H : ∀ s i, WFStore s → i < s.length → s.length - i ≤ f →
      ∃ t, grad f s i = some (t, gvalTop s i) ∧ CacheExt s t) :
    ∀ cs s acc, WFStore s →
      (∀ wc ∈ cs, wc.2 < s.length ∧ s.length - wc.2 ≤ f) →
      ∃ t, goChildren (grad f) s cs acc =
          some (t, acc + (cs.map fun wc => wc.1 * gvalTop s wc.2).sum) ∧
        CacheExt s t := by
  intro cs
  induction cs with
  | nil =>
    intro s acc hwf _
    exact ⟨s, by simp [goChildren], CacheExt.refl s⟩
  | cons wc rest ih =>
    obtain ⟨w, c⟩ := wc
    intro s acc hwf hb
    obtain ⟨hclt, hcf⟩ := hb (w, c) (by simp)
    obtain ⟨t1, hg1, hext1⟩ := H s c hwf hclt hcf
    have hwf1 : WFStore t1 := CacheExt.wf s t1 hwf hext1
    have hlen1 : t1.length = s.length := hext1.1
    obtain ⟨t2, hg2, hext2⟩ := ih t1 (acc + w * gvalTop s c) hwf1
      (fun wc2 hwc2 => by rw [hlen1]; exact hb wc2 (by simp [hwc2]))
    refine ⟨t2, ?_, CacheExt.trans s t1 t2 hwf hext1 hext2⟩
    rw [goChildren, hg1]
    dsimp only
    rw [hg2]
    have hmap : (rest.map fun wc => wc.1 * gvalTop t1 wc.2) =
        rest.map fun wc => wc.1 * gvalTop s wc.2 :=
      List.map_congr_left fun wc2 hwc2 => by
        rw [CacheExt.gvalTop_eq s t1 hwf hext1 wc2.2 (hb wc2 (by simp [hwc2])).1]
    rw [hmap]
    simp [add_assoc]

theorem grad_sound : ∀ f s i, WFStore s → i < s.length → s.length - i ≤ f →
    ∃ t, grad f s i = some (t, gvalTop s i) ∧ CacheExt s t ∧
      (getNode t i).grad_value = some (gvalTop s i) := by
  intro f
  induction f with
  | zero => intro s i _ hi hf; omega
  | succ a ih =>
    intro s i hwf hi hf
    cases hg : (getNode s i).grad_value with
    | some g =>
      refine ⟨s, ?_, CacheExt.refl s, by rw [hg, gvalTop_cached s i g hi hg]⟩
      rw [grad_succ, gradStep_cached (grad a) s i g hg,
        gvalTop_cached s i g hi hg]
    | none =>
      have H : ∀ u j, WFStore u → j < u.length → u.length - j ≤ a →
          ∃ t, grad a u j = some (t, gvalTop u j) ∧ CacheExt u t := by
        intro u j hu hj hjf
        obtain ⟨t, h1, h2, _⟩ := ih u j hu hj hjf
        exact ⟨t, h1, h2⟩
      obtain ⟨t1, hgo, hext1⟩ := goChildren_sound a H (getNode s i).children s 0
        hwf (fun wc hwc => by
          have hb := hwf i hi wc hwc
          exact ⟨hb.2, by omega⟩)
      have hsum : (0 : ℚ) + ((getNode s i).children.map
          fun wc => wc.1 * gvalTop s wc.2).sum = gvalTop s i := by
        rw [zero_add, ← gvalTop_uncached s hwf i hi hg]
      refine ⟨setGrad t1 i (gvalTop s i), ?_, ?_, ?_⟩
      · rw [grad_succ, gradStep, hg, hgo, hsum]
      · exact CacheExt.setGrad_step s t1 i hext1 hi hg
      · have hit : i < t1.length := by rw [hext1.1]; exact hi
        rw [getNode_setGrad_self t1 i _ hit]

/-! ### Invariants of stores built by the forward operations -/

theorem WFStore_mkVar (s : Store) (v : ℚ) (hwf : WFStore s) :
    WFStore (mkVar s v).1 := by
  intro i hi wc hwc
  rw [length_mkVar] at hi ⊢
  rcases Nat.lt_succ_iff_lt_or_eq.1 hi with hlt | heq
  · rw [getNode_mkVar_lt s v i hlt] at hwc
    have hb := hwf i hlt wc hwc
    omega
  · subst heq
    rw [getNode_mkVar_self s v] at hwc
    simp at hwc

theorem WFStore_recordChild (s : Store) (i : Nat) (w : ℚ) (c : Nat)
    (hwf : WFStore s) (hic : i < c) (hc : c < s.length) :
    WFStore (recordChild s i w c) := by
  intro j hj wc hwc
  rw [length_recordChild] at hj ⊢
  by_cases hij : i = j
  · subst hij
    rw [getNode_recordChild_self s i w c (by omega)] at hwc
    rcases List.mem_append.1 hwc with hm | hm
    · exact hwf i hj wc hm
    · obtain rfl := List.mem_singleton.1 hm
      exact ⟨hic, hc⟩
  · rw [getNode_recordChild_ne s i j w c hij] at hwc
    exact hwf j hj wc hwc

theorem WFStore_setGrad (s : Store) (i : Nat) (v : ℚ) (hwf : WFStore s) :
    WFStore (setGrad s i v) := by
  intro j hj wc hwc
  rw [length_setGrad] at hj ⊢
  rw [children_setGrad] at hwc
  exact hwf j hj wc hwc

theorem caches_none_mkVar (s : Store) (v : ℚ)
    (h : ∀ j, j < s.length → (getNode s j).grad_value = none) :
    ∀ j, j < (mkVar s v).1.length → (getNode (mkVar s v).1 j).grad_value = none := by
  intro j hj
  rw [length_mkVar] at hj
  rcases Nat.lt_succ_iff_lt_or_eq.1 hj with hlt | heq
  · rw [getNode_mkVar_lt s v j hlt]
    exact h j hlt
  · subst heq
    rw [getNode_mkVar_self s v]

theorem caches_none_recordChild (s : Store) (i : Nat) (w : ℚ) (c : Nat)
    (h : ∀ j, j < s.length → (getNode s j).grad_value = none) :
    ∀ j, j < (recordChild s i w c).length →
      (getNode (recordChild s i w c) j).grad_value = none := by
  intro j hj
  rw [length_recordChild] at hj
  rw [grad_value_recordChild]
  exact h j hj

theorem built_inv (s : Store) (hb : Built s) :
    WFStore s ∧ ∀ j, j < s.length → (getNode s j).grad_value = none := by
  induction hb with
  | empty => exact ⟨fun i hi => by simp at hi, fun j hj => by simp at hj⟩
  | var s v _ ih => exact ⟨WFStore_mkVar s v ih.1, caches_none_mkVar s v ih.2⟩
  | addB s a b _ ha hb ih =>
    have h1 := WFStore_mkVar s ((getNode s a).value + (getNode s b).value) ih.1
    have hl1 := length_mkVar s ((getNode s a).value + (getNode s b).value)
    have h2 := WFStore_recordChild _ a 1 s.length h1 ha (by omega)
    have hl2 := length_recordChild (mkVar s ((getNode s a).value + (getNode s b).value)).1 a 1 s.length
    have h3 := WFStore_recordChild _ b 1 s.length h2 hb (by omega)
    refine ⟨h3, ?_⟩
    exact caches_none_recordChild _ b 1 s.length
      (caches_none_recordChild _ a 1 s.length
        (caches_none_mkVar s _ ih.2))
  | mulB s a b _ ha hb ih =>
    have h1 := WFStore_mkVar s ((getNode s a).value * (getNode s b).value) ih.1
    have hl1 := length_mkVar s ((getNode s a).value * (getNode s b).value)
    have h2 := WFStore_recordChild _ a ((getNode s b).value) s.length h1 ha (by omega)
    have hl2 := length_recordChild (mkVar s ((getNode s a).value * (getNode s b).value)).1 a ((getNode s b).value) s.length
    have h3 := WFStore_recordChild _ b ((getNode s a).value) s.length h2 hb (by omega)
    refine ⟨h3, ?_⟩
    exact caches_none_recordChild _ b _ s.length
      (caches_none_recordChild _ a _ s.length
        (caches_none_mkVar s _ ih.2))
  | sinB sq cq s a _ ha ih =>
    have h1 := WFStore_mkVar s (sq (getNode s a).value) ih.1
    have hl1 := length_mkVar s (sq (getNode s a).value)
    have h2 := WFStore_recordChild _ a (cq (getNode s a).value) s.length h1 ha (by omega)
    refine ⟨h2, ?_⟩
    exact caches_none_recordChild _ a _ s.length (caches_none_mkVar s _ ih.2)

/-! ### All gradients vanish when no memo was ever seeded -/

theorem gval_of_all_none (s : Store)
    (h : ∀ j, j < s.length → (getNode s j).grad_value = none) :
    ∀ f i, gval f s i = 0 := by
  intro f
  induction f with
  | zero => intro i; rfl
  | succ a ih =>
    intro i
    have hnone : (getNode s i).grad_value = none := by
      by_cases hi : i < s.length
      · exact h i hi
      · rw [getNode_out s i (Nat.le_of_not_lt hi)]
        rfl
    rw [gval_succ_uncached a s i hnone]
    refine List.sum_eq_zero fun x hx => ?_
    obtain ⟨wc, _, rfl⟩ := List.mem_map.1 hx
    rw [ih wc.2, mul_zero]

/-! ### Gradient queries never change an already-set memo -/

theorem goChildren_preserves_cache (f : Nat)
    (Hf : ∀ s m t r, grad f s m = some (t, r) → ∀ n g,
      (getNode s n).grad_value = some g → (getNode t n).grad_value = some g) :
    ∀ cs s acc t r, goChildren (grad f) s cs acc = some (t, r) → ∀ n g,
      (getNode s n).grad_value = some g → (getNode t n).grad_value = some g := by
  intro cs
  induction cs with
  | nil =>
    intro s acc t r hgo n g hc
    rw [goChildren] at hgo
    obtain ⟨rfl, -⟩ : s = t ∧ acc = r := by
      injection hgo with h
      exact ⟨congrArg Prod.fst h, congrArg Prod.snd h⟩
    exact hc
  | cons wc rest ih =>
    obtain ⟨w, c⟩ := wc
    intro s acc t r hgo n g hc
    rw [goChildren] at hgo
    cases hq : grad f s c with
    | none => rw [hq] at hgo; exact absurd hgo (by simp)
    | some p =>
      rw [hq] at hgo
      exact ih p.1 _ t r hgo n g (Hf s c p.1 p.2 (by rw [hq]) n g hc)

theorem grad_preserves_cache :
    ∀ f s m t r, grad f s m = some (t, r) → ∀ n g,
      (getNode s n).grad_value = some g → (getNode t n).grad_value = some g := by
  intro f
  induction f with
  | zero => intro s m t r hgr; exact absurd hgr (by rw [grad_zero]; simp)
  | succ a ih =>
    intro s m t r hgr n g hc
    rw [grad_succ, gradStep] at hgr
    cases hm : (getNode s m).grad_value with
    | some gv =>
      rw [hm] at hgr
      obtain ⟨rfl, -⟩ : s = t ∧ gv = r := by
        injection hgr with h
        exact ⟨congrArg Prod.fst h, congrArg Prod.snd h⟩
      exact hc
    | none =>
      rw [hm] at hgr
      cases hgo : goChildren (grad a) s (getNode s m).children 0 with
      | none => rw [hgo] at hgr; exact absurd hgr (by simp)
      | some p =>
        rw [hgo] at hgr
        obtain ⟨rfl, -⟩ : setGrad p.1 m p.2 = t ∧ p.2 = r := by
          injection hgr with h
          exact ⟨congrArg Prod.fst h, congrArg Prod.snd h⟩
        have hnm : m ≠ n := by
          intro hmn
          rw [hmn, hc] at hm
          exact absurd hm (by simp)
        rw [getNode_setGrad_ne p.1 m n p.2 hnm]
        exact goChildren_preserves_cache a ih _ s 0 p.1 p.2 hgo n g hc

theorem grad_reads_cache (f : Nat) (s : Store) (n : Nat) (g : ℚ)
    (h : (getNode s n).grad_value = some g) : grad (f + 1) s n = some (s, g) := by
  rw [grad_succ, gradStep_cached (grad f) s n g h]

/-! ### Claims about the forward operations -/

/-- Claim C2: for every pair of in-range nodes `a, b`, `multiply(a, b)`
returns a new node whose value is `a.value * b.value`, appends exactly one
edge to `a` with weight `b.value` and exactly one edge to `b` with weight
`a.value`, both pointing at the new output node, and changes nothing else
(when `a` and `b` are the same node, the two appends land on that node in
order). -/
theorem mulOp_spec (s : Store) (a b : Nat) (ha : a < s.length)
    (hb : b < s.length) : MulSpec s a b := by
  have hm1 : (mulOp s a b).1 =
      recordChild (recordChild
        (mkVar s ((getNode s a).value * (getNode s b).value)).1
        a (getNode s b).value s.length) b (getNode s a).value s.length := rfl
  have hlu1 : (mkVar s ((getNode s a).value * (getNode s b).value)).1.length =
      s.length + 1 := length_mkVar s _
  have hna : a ≠ s.length := Nat.ne_of_lt ha
  have hnb : b ≠ s.length := Nat.ne_of_lt hb
  refine ⟨rfl, ?_, ?_, ?_, ?_, ?_, ?_⟩
  · rw [hm1, length_recordChild, length_recordChild, hlu1]
  · rw [hm1, getNode_recordChild_ne _ b s.length _ _ hnb,
      getNode_recordChild_ne _ a s.length _ _ hna, getNode_mkVar_self]
  · intro j hj hja hjb
    rw [hm1, getNode_recordChild_ne _ b j _ _ (Ne.symm hjb),
      getNode_recordChild_ne _ a j _ _ (Ne.symm hja), getNode_mkVar_lt s _ j hj]
  · intro j hj
    constructor
    · rw [hm1, value_recordChild, value_recordChild, getNode_mkVar_lt s _ j hj]
    · rw [hm1, grad_value_recordChild, grad_value_recordChild,
        getNode_mkVar_lt s _ j hj]
  · intro hab
    constructor
    · rw [hm1, getNode_recordChild_ne _ b a _ _ (Ne.symm hab),
        getNode_recordChild_self _ a _ _ (by omega), getNode_mkVar_lt s _ a ha]
    · rw [hm1, getNode_recordChild_self _ b _ _ (by rw [length_recordChild]; omega),
        getNode_recordChild_ne _ a b _ _ hab, getNode_mkVar_lt s _ b hb]
  · intro hab
    subst hab
    rw [hm1, getNode_recordChild_self _ a _ _ (by rw [length_recordChild]; omega),
      getNode_recordChild_self _ a _ _ (by omega), getNode_mkVar_lt s _ a ha,
      List.append_assoc]
    rfl

/-- Claim C7: for every pair of in-range nodes `a, b`, `add(a, b)` returns
a new node whose value is `a.value + b.value`, appends exactly one edge of
weight `1.0` to `a` and exactly one edge of weight `1.0` to `b`, both
pointing at the new output node, and changes nothing else. -/
theorem addOp_spec (s : Store) (a b : Nat) (ha : a < s.length)
    (hb : b < s.length) : AddSpec s a b := by
  have hm1 : (addOp s a b).1 =
      recordChild (recordChild
        (mkVar s ((getNode s a).value + (getNode s b).value)).1
        a 1 s.length) b 1 s.length := rfl
  have hlu1 : (mkVar s ((getNode s a).value + (getNode s b).value)).1.length =
      s.length + 1 := length_mkVar s _
  have hna : a ≠ s.length := Nat.ne_of_lt ha
  have hnb : b ≠ s.length := Nat.ne_of_lt hb
  refine ⟨rfl, ?_, ?_, ?_, ?_, ?_, ?_⟩
  · rw [hm1, length_recordChild, length_recordChild, hlu1]
  · rw [hm1, getNode_recordChild_ne _ b s.length _ _ hnb,
      getNode_recordChild_ne _ a s.length _ _ hna, getNode_mkVar_self]
  · intro j hj hja hjb
    rw [hm1, getNode_recordChild_ne _ b j _ _ (Ne.symm hjb),
      getNode_recordChild_ne _ a j _ _ (Ne.symm hja), getNode_mkVar_lt s _ j hj]
  · intro j hj
    constructor
    · rw [hm1, value_recordChild, value_recordChild, getNode_mkVar_lt s _ j hj]
    · rw [hm1, grad_value_recordChild, grad_value_recordChild,
        getNode_mkVar_lt s _ j hj]
  · intro hab
    constructor
    · rw [hm1, getNode_recordChild_ne _ b a _ _ (Ne.symm hab),
        getNode_recordChild_self _ a _ _ (by omega), getNode_mkVar_lt s _ a ha]
    · rw [hm1, getNode_recordChild_self _ b _ _ (by rw [length_recordChild]; omega),
        getNode_recordChild_ne _ a b _ _ hab, getNode_mkVar_lt s _ b hb]
  · intro hab
    subst hab
    rw [hm1, getNode_recordChild_self _ a _ _ (by rw [length_recordChild]; omega),
      getNode_recordChild_self _ a _ _ (by omega), getNode_mkVar_lt s _ a ha,
      List.append_assoc]
    rfl

/-- Claim C8: for every in-range node `x`, `sin(x)` returns a new node
whose value is `math.sin(x.value)`, appends exactly one edge to `x` with
weight `math.cos(x.value)` pointing at the new output node, and changes
nothing else (`math.sin`/`math.cos` abstracted as `sq`/`cq`). -/
theorem sinOp_spec (sq cq : ℚ → ℚ) (s : Store) (a : Nat) (ha : a < s.length) :
    SinSpec sq cq s a := by
  have hm1 : (sinOp sq cq s a).1 =
      recordChild (mkVar s (sq (getNode s a).value)).1
        a (cq (getNode s a).value) s.length := rfl
  have hna : a ≠ s.length := Nat.ne_of_lt ha
  refine ⟨rfl, ?_, ?_, ?_, ?_, ?_⟩
  · rw [hm1, length_recordChild, length_mkVar]
  · rw [hm1, getNode_recordChild_ne _ a s.length _ _ hna, getNode_mkVar_self]
  · intro j hj hja
    rw [hm1, getNode_recordChild_ne _ a j _ _ (Ne.symm hja),
      getNode_mkVar_lt s _ j hj]
  · intro j hj
    constructor
    · rw [hm1, value_recordChild, getNode_mkVar_lt s _ j hj]
    · rw [hm1, grad_value_recordChild, getNode_mkVar_lt s _ j hj]
  · rw [hm1, getNode_recordChild_self _ a _ _ (by rw [length_mkVar]; omega),
      getNode_mkVar_lt s _ a ha]

/-! ### Claims about the reverse accumulation -/

/-- Claim C1: on a well-formed store with enough fuel, `grad(n)` returns
the cached gradient when it is set; otherwise it computes the sum over
`n`'s children of `weight * grad(consumer)` (each recursive call returning
its consumer's canonical gradient), stores that sum as `n`'s cached
gradient and returns it, the childless case producing the empty sum `0`. -/
theorem grad_memo_recursion (s : Store) (i fuel : Nat) (hwf : WFStore s)
    (hi : i < s.length) (hf : s.length ≤ fuel) : GradMemoSpec s i fuel := by
  obtain ⟨m, rfl⟩ : ∃ m, fuel = m + 1 := ⟨fuel - 1, by omega⟩
  refine ⟨fun g hg => grad_reads_cache m s i g hg, ?_, ?_⟩
  · intro hnone
    have hsum : gvalTop s i =
        ((getNode s i).children.map fun wc => wc.1 * gvalTop s wc.2).sum :=
      gvalTop_uncached s hwf i hi hnone
    obtain ⟨t, heq, _, hcache⟩ := grad_sound (m + 1) s i hwf hi (by omega)
    refine ⟨?_, ?_, ?_⟩
    · rw [heq, ← hsum]
      rfl
    · rw [heq, ← hsum]
      show some (getNode t i).grad_value = some (some (gvalTop s i))
      rw [hcache]
    · intro wc hwc
      have hb := hwf i hi wc hwc
      obtain ⟨t2, heq2, -, -⟩ := grad_sound (m + 1) s wc.2 hwf hb.2 (by omega)
      rw [heq2]
      rfl
  · intro hnone hch
    rw [grad_succ]
    simp only [gradStep, hnone, hch, goChildren]

/-- Claim C5: after a completed `grad` call on node `i`, a second call on
the resulting heap returns the identical pair (same value, heap unchanged)
and needs no recursive expansion at all: fuel `1`, which forbids any
recursive call, already suffices because it just reads the memo. -/
theorem grad_second_call_trivial (s : Store) (i fuel : Nat) (hwf : WFStore s)
    (hi : i < s.length) (hf : s.length - i ≤ fuel) :
    (grad fuel s i).bind (fun p => grad 1 p.1 i) = grad fuel s i := by
  obtain ⟨t, heq, -, hcache⟩ := grad_sound fuel s i hwf hi hf
  rw [heq]
  exact grad_reads_cache 0 t i _ hcache

/-- Claim C6: a graph built only by the forward operations is well-formed
(every recorded edge points to a node created strictly later), and on any
such graph the gradient recursion terminates, with recursion depth bounded
by the number of later-created nodes: fuel `s.length - i` suffices. -/
theorem built_wf_terminates (s : Store) (i : Nat) (hb : Built s)
    (hi : i < s.length) :
    WFStore s ∧ (grad (s.length - i) s i).isSome := by
  have hwf := (built_inv s hb).1
  obtain ⟨t, heq, -, -⟩ := grad_sound (s.length - i) s i hwf hi (le_refl _)
  exact ⟨hwf, by rw [heq]; rfl⟩

/-- Claim C9: on a graph built by the forward operations in which no node
was ever seeded, `grad` succeeds and returns `0` for every node. -/
theorem grad_unseeded_zero (s : Store) (i : Nat) (hb : Built s)
    (hi : i < s.length) :
    (grad s.length s i).map Prod.snd = some 0 := by
  obtain ⟨hwf, hnone⟩ := built_inv s hb
  obtain ⟨t, heq, -, -⟩ := grad_sound s.length s i hwf hi (Nat.sub_le _ _)
  rw [heq]
  show some (gvalTop s i) = some 0
  rw [gvalTop, gval_of_all_none s hnone s.length i]

/-- Claim C4: building `y = multiply(x, x)` appends two separate edges to
`x` (one per argument role, each of weight `x.value`), and after seeding
the root at `y`, `grad(x)` accumulates them by summation to `2 * x.value`
(an exact equality here, so in particular within `1e-12`). -/
theorem mul_self_accumulates (v : ℚ) :
    (getNode (mulSelfSeeded v) 0).children = [(v, 1), (v, 1)] ∧
    (getNode (mulSelfSeeded v) 0).value = v ∧
    (grad 2 (mulSelfSeeded v) 0).map Prod.snd = some (2 * v) := by
  refine ⟨?_, ?_, ?_⟩
  · simp [mulSelfSeeded, mulOp, mkVar, setGrad, recordChild, getNode, List.getD]
  · simp [mulSelfSeeded, mulOp, mkVar, setGrad, recordChild, getNode, List.getD]
  · simp [mulSelfSeeded, mulOp, mkVar, setGrad, recordChild, getNode, List.getD,
      grad, gradStep, goChildren]
    ring

/-- Claim C10: a memo once set is never recomputed or changed by any later
`grad` call, and a later call on that node just returns it; concretely, on
`x = Var(3); y = x * x`, calling `x.grad()` before seeding caches `0` at
both nodes, seeding `y` afterwards and re-querying `x.grad()` still
returns the stale `0`, whereas seeding first yields `2 * x.value = 6 ≠ 0`. -/
theorem cached_value_permanent :
    (∀ f s m t r n g, grad f s m = some (t, r) →
      (getNode s n).grad_value = some g → (getNode t n).grad_value = some g) ∧
    (∀ f s n g, (getNode s n).grad_value = some g →
      grad (f + 1) s n = some (s, g)) ∧
    grad 2 sqStoreA 0 = some (sqStoreCachedZero, 0) ∧
    grad 2 (setGrad sqStoreCachedZero 1 1) 0 =
      some (setGrad sqStoreCachedZero 1 1, 0) ∧
    (grad 2 (setGrad sqStoreA 1 1) 0).map Prod.snd =
      some (2 * (getNode sqStoreA 0).value) ∧
    (0 : ℚ) ≠ 2 * (getNode sqStoreA 0).value := by
  refine ⟨fun f s m t r n g h1 h2 => grad_preserves_cache f s m t r h1 n g h2,
    fun f s n g h => grad_reads_cache f s n g h, ?_, ?_, ?_, ?_⟩
  · simp [sqStoreA, sqStoreCachedZero, mulOp, mkVar, setGrad, recordChild,
      getNode, List.getD, grad, gradStep, goChildren]
    norm_num
  · simp [sqStoreCachedZero, setGrad, getNode, List.getD, grad, gradStep,
      goChildren]
  · simp [sqStoreA, mulOp, mkVar, setGrad, recordChild, getNode, List.getD,
      grad, gradStep, goChildren]
    norm_num
  · simp [sqStoreA, mulOp, mkVar, setGrad, recordChild, getNode, List.getD]

/-- Claim C3: in the reference scenario `x = Var(0.5)`, `y = Var(4.2)`,
`z = x * y + sin(x)` with `z.grad_value = 1.0`, the value of `z` is within
`1e-12` of `2.579425538604203` whenever the abstracted `math.sin` is
within `1e-12` of that constant minus `2.1` at `0.5`, `x.grad()` returns
exactly `y.value + math.cos(x.value)`, and `y.grad()` returns exactly
`x.value` (so both are within `1e-12` of the claimed targets). -/
theorem end_to_end (sq cq : ℚ → ℚ)
    (hs : |sq (1/2) - 479425538604203 / 1000000000000000| ≤ 1 / 1000000000000) :
    ExSpec sq cq := by
  refine ⟨?_, ?_, ?_⟩
  · have hv : (getNode (exStore sq cq) 4).value = 1/2 * (21/5) + sq (1/2) := by
      simp [exStore, addOp, sinOp, mulOp, mkVar, setGrad, recordChild,
        getNode, List.getD]
    rw [hv, abs_le] at *
    constructor <;> [linarith [hs.1]; linarith [hs.2]]
  · simp [exStore, addOp, sinOp, mulOp, mkVar, setGrad, recordChild,
      getNode, List.getD, grad, gradStep, goChildren]
  · simp [exStore, addOp, sinOp, mulOp, mkVar, setGrad, recordChild,
      getNode, List.getD, grad, gradStep, goChildren]

/-! ### Witnesses: the claims applied at concrete inputs -/

theorem built_sqStoreA : Built sqStoreA :=
  Built.mulB (mkVar [] 3).1 0 0 (Built.var [] 3 Built.empty)
    (by decide) (by decide)

theorem grad_memo_recursion_witness : GradMemoSpec (mulSelfSeeded 3) 0 2 :=
  grad_memo_recursion (mulSelfSeeded 3) 0 2 (by decide) (by decide) (by decide)

theorem mulOp_spec_witness : MulSpec pairStore 0 1 :=
  mulOp_spec pairStore 0 1 (by decide) (by decide)

theorem end_to_end_witness :
    ExSpec (fun _ => 479425538604203 / 1000000000000000) (fun _ => 0) :=
  end_to_end _ _ (by norm_num)

theorem mul_self_accumulates_witness :
    (getNode (mulSelfSeeded 3) 0).children = [(3, 1), (3, 1)] ∧
    (getNode (mulSelfSeeded 3) 0).value = 3 ∧
    (grad 2 (mulSelfSeeded 3) 0).map Prod.snd = some (2 * 3) :=
  mul_self_accumulates 3

theorem grad_second_call_trivial_witness :
    (grad 2 (mulSelfSeeded 3) 0).bind (fun p => grad 1 p.1 0) =
      grad 2 (mulSelfSeeded 3) 0 :=
  grad_second_call_trivial (mulSelfSeeded 3) 0 2 (by decide) (by decide)
    (by decide)

theorem built_wf_terminates_witness :
    WFStore sqStoreA ∧ (grad (sqStoreA.length - 0) sqStoreA 0).isSome :=
  built_wf_terminates sqStoreA 0 built_sqStoreA (by decide)

theorem addOp_spec_witness : AddSpec pairStore 0 1 :=
  addOp_spec pairStore 0 1 (by decide) (by decide)

theorem sinOp_spec_witness :
    SinSpec (fun q => q * q) (fun q => q + 1) pairStore 0 :=
  sinOp_spec (fun q => q * q) (fun q => q + 1) pairStore 0 (by decide)

theorem grad_unseeded_zero_witness :
    (grad sqStoreA.length sqStoreA 0).map Prod.snd = some 0 :=
  grad_unseeded_zero sqStoreA 0 built_sqStoreA (by decide)

theorem cached_value_permanent_witness :
    (getNode (setGrad sqStoreCachedZero 1 1) 0).grad_value = some 0 :=
  cached_value_permanent.1 2 (setGrad sqStoreCachedZero 1 1) 0
    (setGrad sqStoreCachedZero 1 1) 0 0 0
    cached_value_permanent.2.2.2.1 rfl

end Revad
